import Mathlib

/-!
# Verification of the trollibox MPD adapter core

A shallow embedding, in Lean 4, of the core logic of the trollibox
repository (`src/player/mpd/mpd.go` and `src/filter/filter.go`): the URI
schema translation, the pooled-connection acquisition, the keepalive
supervisor, the sync-loop handlers for playlist events and play counting,
the read-through track cache, and the fan-out/fan-in filter engine.
Strings are embedded as `List Char`, Go maps keyed by strings as
association lists, fallible protocol calls as `Except`-valued oracles
passed in as parameters, and the relevant goroutine interleavings as
explicit schedules or step relations.
-/

namespace Trollibox

/-- Strings of the Go source are embedded as lists of characters. -/
abbrev Str : Type := List Char

/-- `URI_SCHEMA = "mpd://"` from `mpd.go`. -/
def URI_SCHEMA : Str := "mpd://".toList

/-- `uriToMpd` from `mpd.go`: `strings.TrimPrefix(uri, URI_SCHEMA)`. -/
def uriToMpd (uri : Str) : Str :=
  if URI_SCHEMA.isPrefixOf uri then uri.drop URI_SCHEMA.length else uri

/-- The separator `"://"` looked for by `mpdToUri`. -/
def schemaSep : Str := "://".toList

/-- Boolean substring test, the embedding of `strings.Index(s, pat) != -1`. -/
def hasSubstring (pat s : Str) : Bool :=
  s.tails.any fun t => pat.isPrefixOf t

/-- `mpdToUri` from `mpd.go`: if `strings.Index(song, "://") == -1` the
`mpd://` schema is prepended, otherwise the name is returned unchanged. -/
def mpdToUri (song : Str) : Str :=
  if hasSubstring schemaSep song then song else URI_SCHEMA ++ song

theorem uriToMpd_append_schema (s : Str) : uriToMpd (URI_SCHEMA ++ s) = s := by
  have h : URI_SCHEMA.isPrefixOf (URI_SCHEMA ++ s) = true := by
    rw [List.isPrefixOf_iff_prefix]
    exact List.prefix_append _ _
  simp [uriToMpd, h]

/-- C10: the round trip as the claim states it, over every string. It fails
precisely on strings that already carry the `mpd://` schema; proved below
for all other strings. -/
theorem mpdToUri_roundTrip (s : Str) (h : URI_SCHEMA.isPrefixOf s = false) :
    uriToMpd (mpdToUri s) = s := by
  unfold mpdToUri
  by_cases hsep : hasSubstring schemaSep s
  · simp only [hsep, if_true]
    simp [uriToMpd, h]
  · simp only [hsep, if_false]
    exact uriToMpd_append_schema s

/-- C10 witness: a concrete daemon-side path without the schema round-trips. -/
theorem mpdToUri_roundTrip_witness :
    URI_SCHEMA.isPrefixOf "media/song.mp3".toList = false ∧
      uriToMpd (mpdToUri "media/song.mp3".toList) = "media/song.mp3".toList :=
  ⟨by decide, mpdToUri_roundTrip "media/song.mp3".toList (by decide)⟩

/-- C10 counterexample: a daemon-side name that already starts with
`mpd://` contains `"://"`, so `mpdToUri` leaves it unchanged, and
`uriToMpd` then strips the schema: the round trip loses the prefix. -/
theorem mpdToUri_roundTrip_counterexample :
    uriToMpd (mpdToUri "mpd://a".toList) ≠ "mpd://a".toList := by decide

/-! ## Connection pool (`withMpd`, `newClient`, the `clientPool` channel)

The pool is the buffered channel `clientPool` of `reusableClient`s; a
connection whose `client` field is `nil` is dead. The channel is FIFO:
`withMpd` receives from the front and sends back at the end. The keepalive
supervisors may mark any pooled connection dead between acquisitions. -/

/-- A pooled connection: `alive = false` embeds `rc.client == nil`. -/
structure Conn where
  id : Nat
  alive : Bool
  deriving DecidableEq, Repr

/-- What `withMpd`'s acquisition phase hands to the callback `fn`. -/
inductive AcqResult where
  /-- `fn` runs with this connection. -/
  | handed (c : Conn)
  /-- `newClient` failed; the error is returned to the caller, `fn` never runs. -/
  | failed
  deriving DecidableEq, Repr

/-- The acquisition phase of `withMpd` from `mpd.go`, together with the
deferred send that returns the connection to the pool. `freshId` is the
oracle for `newClient`: `some i` means dialing succeeds and yields a new
live client, `none` means it fails. On an empty pool the receive blocks,
so no step is possible (`none`). -/
def withMpdAcquire (freshId : Option Nat) : List Conn → Option (AcqResult × List Conn)
  | [] => none
  | c :: rest =>
    if c.alive then
      some (AcqResult.handed c, rest ++ [c])
    else
      match freshId with
      | some i => some (AcqResult.handed ⟨i, true⟩, rest ++ [⟨i, true⟩])
      | none => some (AcqResult.failed, rest)

/-- A keepalive supervisor marking its connection dead (`client = nil`)
while the connection sits in the pool. -/
def markDead (i : Nat) (pool : List Conn) : List Conn :=
  pool.map fun c => if c.id = i then { c with alive := false } else c

/-- Operations interleaved on the pool. -/
inductive PoolOp where
  /-- A `withMpd` call with the given `newClient` oracle outcome. -/
  | acquire (freshId : Option Nat)
  /-- A supervisor kills connection `i` (ping failure or idle expiry). -/
  | kill (i : Nat)

/-- One pool operation. An `acquire` on an empty pool blocks and is
dropped from the model's schedule (no state change). -/
def poolStep (pool : List Conn) : PoolOp → List Conn
  | PoolOp.acquire freshId =>
    match withMpdAcquire freshId pool with
    | some (_, pool') => pool'
    | none => pool
  | PoolOp.kill i => markDead i pool

/-- A sequence of interleaved pool operations. -/
def poolRun (ops : List PoolOp) (pool : List Conn) : List Conn :=
  ops.foldl poolStep pool

theorem length_withMpdAcquire_le (freshId : Option Nat) (pool pool' : List Conn)
    (r : AcqResult) (h : withMpdAcquire freshId pool = some (r, pool')) :
    pool'.length ≤ pool.length := by
  match pool with
  | [] => simp [withMpdAcquire] at h
  | c :: rest =>
    by_cases hc : c.alive
    · simp [withMpdAcquire, hc] at h
      simp [← h.2]
    · cases freshId with
      | some i =>
        simp [withMpdAcquire, hc] at h
        simp [← h.2]
      | none =>
        simp [withMpdAcquire, hc] at h
        rw [← h.2]
        simp

theorem length_poolStep_le (pool : List Conn) (op : PoolOp) :
    (poolStep pool op).length ≤ pool.length := by
  cases op with
  | acquire freshId =>
    cases h : withMpdAcquire freshId pool with
    | none => simp [poolStep, h]
    | some p =>
      simp only [poolStep, h]
      exact length_withMpdAcquire_le freshId pool p.2 p.1 (by rw [h])
  | kill i => simp [poolStep, markDead]

theorem length_poolRun_le (ops : List PoolOp) (pool : List Conn) :
    (poolRun ops pool).length ≤ pool.length := by
  induction ops generalizing pool with
  | nil => simp [poolRun]
  | cons op ops ih =>
    calc (poolRun (op :: ops) pool).length
        = (poolRun ops (poolStep pool op)).length := by simp [poolRun, List.foldl_cons]
      _ ≤ (poolStep pool op).length := ih _
      _ ≤ pool.length := length_poolStep_le pool op

/-- C1, as amended: for every acquisition on a nonempty pool,
(1) the acquisition phase hands `fn` a live connection, never a dead one;
(2) if the front connection is dead, the replacement from `newClient` is
what `fn` receives, and the acquisition fails exactly when `newClient`
fails;
(3) the pool never grows past its size, so a pool started at its fixed
capacity never exceeds it;
(4) but on a failed replacement the slot is lost for good: the pool
shrinks by one and, every later operation being non-increasing, no later
successful acquisition restores it. -/
theorem withMpd_acquire_spec (freshId : Option Nat) (c : Conn) (rest : List Conn) :
    (∀ r pool', withMpdAcquire freshId (c :: rest) = some (AcqResult.handed r, pool') →
      r.alive = true) ∧
    ((∃ pool', withMpdAcquire freshId (c :: rest) = some (AcqResult.failed, pool')) ↔
      (c.alive = false ∧ freshId = none)) ∧
    (∀ r pool', withMpdAcquire freshId (c :: rest) = some (r, pool') →
      pool'.length ≤ (c :: rest).length) ∧
    (withMpdAcquire freshId (c :: rest) = some (AcqResult.failed, rest) →
      ∀ ops, (poolRun ops rest).length < (c :: rest).length) := by
  refine ⟨?_, ⟨?_, ?_⟩, ?_, ?_⟩
  · intro r pool' h
    by_cases hc : c.alive
    · simp [withMpdAcquire, hc] at h
      rw [← h.1, hc]
    · cases freshId with
      | some i => simp [withMpdAcquire, hc] at h; rw [← h.1]
      | none => simp [withMpdAcquire, hc] at h
  · rintro ⟨pool', h⟩
    by_cases hc : c.alive
    · simp [withMpdAcquire, hc] at h
    · cases freshId with
      | some i => simp [withMpdAcquire, hc] at h
      | none => exact ⟨by simp [hc], rfl⟩
  · rintro ⟨hc, hf⟩
    exact ⟨rest, by simp [withMpdAcquire, hc, hf]⟩
  · intro r pool' h
    exact length_withMpdAcquire_le freshId _ _ _ h
  · intro _ ops
    calc (poolRun ops rest).length ≤ rest.length := length_poolRun_le ops rest
      _ < (c :: rest).length := by simp

/-- C1 witness: a concrete pool whose front connection is dead, with a
failing `newClient`: the acquisition fails and the pool stays one short
even after a later successful acquisition. -/
theorem withMpd_acquire_spec_witness :
    (poolRun [PoolOp.acquire (some 7)] [⟨1, true⟩]).length <
      ([⟨0, false⟩, ⟨1, true⟩] : List Conn).length :=
  (withMpd_acquire_spec none ⟨0, false⟩ [⟨1, true⟩]).2.2.2 (by rfl)
    [PoolOp.acquire (some 7)]

/-- C1 counterexample: the claim's "the pool slot is left empty only until
the next successful acquisition" fails. After a failed replacement the
pool holds one connection fewer, and a subsequent acquisition that
succeeds (front connection alive, handed out and returned) leaves the
pool still one below its capacity of 2. -/
theorem withMpd_slot_refill_counterexample :
    poolRun [PoolOp.acquire none, PoolOp.acquire (some 7)]
        [⟨0, false⟩, ⟨1, true⟩] = [⟨1, true⟩] ∧
      ([⟨1, true⟩] : List Conn).length ≠ ([⟨0, false⟩, ⟨1, true⟩] : List Conn).length := by
  constructor
  · rfl
  · decide

/-! ## Sync loop: the internal `"playlist"` event and play counting

`mainLoop`'s `case "playlist"` inspects the head of `pl.playlist`,
compares its URI with `pl.lastTrack`, and on a change calls
`incrementPlayCount` (which persists the count through MPD stickers only
for URIs carrying the `mpd://` schema) before recording the new head in
`lastTrack`. The error-free protocol path is embedded. -/

/-- A `player.PlaylistTrack`: a track reference plus session metadata. -/
structure PlaylistTrack where
  uri : Str
  queuedBy : Str
  progress : Nat
  deriving DecidableEq, Repr

/-- `strings.HasPrefix(uri, URI_SCHEMA)`. -/
def startsWithSchema (uri : Str) : Bool :=
  URI_SCHEMA.isPrefixOf uri

/-- `incrementPlayCount` from `mpd.go` acting on the daemon's sticker
store, embedded as a map from URI to count: a no-op unless the URI has
the `mpd://` schema, otherwise the stored count plus one is written. -/
def incrementPlayCount (uri : Str) (pc : Str → Nat) : Str → Nat :=
  if startsWithSchema uri then
    fun u => if u = uri then pc u + 1 else pc u
  else pc

/-- The sync-loop state the `"playlist"` handler reads and writes:
`lastTrack` and the persisted play counts. -/
structure SyncState where
  lastTrack : Str
  playCount : Str → Nat

/-- `mainLoop`'s `case "playlist"` from `mpd.go` on the error-free path:
nothing happens on an empty playlist; otherwise the play count of the new
head is incremented when `lastTrack` is nonempty and differs from it, and
`lastTrack` is set to the head's URI in every case. -/
def playlistEvent (plist : List PlaylistTrack) (s : SyncState) : SyncState :=
  match plist with
  | [] => s
  | cur :: _ =>
    if s.lastTrack ≠ [] ∧ s.lastTrack ≠ cur.uri then
      { lastTrack := cur.uri, playCount := incrementPlayCount cur.uri s.playCount }
    else
      { s with lastTrack := cur.uri }

/-- A sequence of internal `"playlist"` events, each carrying the playlist
observed when the handler run. -/
def playlistEvents (evs : List (List PlaylistTrack)) (s : SyncState) : SyncState :=
  evs.foldl (fun st e => playlistEvent e st) s

/-- The number of head transitions to `u` in an event sequence: events
with an empty playlist leave the observed head unchanged; a nonempty
event whose head differs from the previously observed nonempty head and
equals `u` counts once; repeated events with an unchanged head count
zero times. -/
def headTransitionsTo (u : Str) (last : Str) : List (List PlaylistTrack) → Nat
  | [] => 0
  | e :: rest =>
    match e with
    | [] => headTransitionsTo u last rest
    | cur :: _ =>
      (if last ≠ [] ∧ last ≠ cur.uri ∧ cur.uri = u then 1 else 0) +
        headTransitionsTo u cur.uri rest

theorem playCount_other (uri u : Str) (pc : Str → Nat) (h : u ≠ uri) :
    incrementPlayCount uri pc u = pc u := by
  unfold incrementPlayCount
  by_cases hs : startsWithSchema uri <;> simp [hs, h]

theorem playCount_self (uri : Str) (pc : Str → Nat) (h : startsWithSchema uri = true) :
    incrementPlayCount uri pc uri = pc uri + 1 := by
  simp [incrementPlayCount, h]

theorem playCount_no_schema (uri : Str) (pc : Str → Nat)
    (h : startsWithSchema uri = false) : incrementPlayCount uri pc = pc := by
  simp [incrementPlayCount, h]

/-- C2, as amended: over every sequence of `"playlist"` events, the
persisted play count of a URI carrying the `mpd://` schema grows by
exactly the number of distinct head transitions to it — one per change of
the observed head to that URI from a different previously observed head,
zero for consecutive events with an unchanged head — while the count of a
URI without the schema never changes at all. -/
theorem playlistEvents_playCount (evs : List (List PlaylistTrack)) (s : SyncState)
    (u : Str) :
    (startsWithSchema u = true →
      (playlistEvents evs s).playCount u =
        s.playCount u + headTransitionsTo u s.lastTrack evs) ∧
    (startsWithSchema u = false →
      (playlistEvents evs s).playCount u = s.playCount u) := by
  induction evs generalizing s with
  | nil => simp [playlistEvents, headTransitionsTo]
  | cons e rest ih =>
    have hstep : playlistEvents (e :: rest) s = playlistEvents rest (playlistEvent e s) := by
      simp [playlistEvents]
    constructor
    · intro hu
      rw [hstep, (ih (playlistEvent e s)).1 hu]
      match e with
      | [] => simp [playlistEvent, headTransitionsTo]
      | cur :: tl =>
        by_cases hch : s.lastTrack ≠ [] ∧ s.lastTrack ≠ cur.uri
        · by_cases hcu : cur.uri = u
          · subst hcu
            simp [playlistEvent, hch, headTransitionsTo, playCount_self _ _ hu]
            omega
          · have : incrementPlayCount cur.uri s.playCount u = s.playCount u :=
              playCount_other _ _ _ (Ne.symm hcu)
            simp [playlistEvent, hch, headTransitionsTo, this, hcu]
        · simp [playlistEvent, hch, headTransitionsTo]
          rcases not_and_or.mp hch with h1 | h2
          · simp [not_not.mp h1]
          · have : s.lastTrack = cur.uri := not_not.mp h2
            simp [this]
    · intro hu
      rw [hstep, (ih (playlistEvent e s)).2 hu]
      match e with
      | [] => simp [playlistEvent]
      | cur :: tl =>
        by_cases hch : s.lastTrack ≠ [] ∧ s.lastTrack ≠ cur.uri
        · by_cases hcu : cur.uri = u
          · subst hcu
            simp [playlistEvent, hch, playCount_no_schema _ _ hu]
          · simp [playlistEvent, hch, playCount_other _ _ _ (Ne.symm hcu)]
        · simp [playlistEvent, hch]

/-- C2 witness: two events with the same head `mpd://b` after a distinct
head `mpd://a` increment the play count of `mpd://b` exactly once. -/
theorem playlistEvents_playCount_witness :
    (playlistEvents
        [[⟨"mpd://b".toList, [], 0⟩], [⟨"mpd://b".toList, [], 0⟩]]
        ⟨"mpd://a".toList, fun _ => 0⟩).playCount "mpd://b".toList =
      (fun _ => 0) "mpd://b".toList +
        headTransitionsTo "mpd://b".toList "mpd://a".toList
          [[⟨"mpd://b".toList, [], 0⟩], [⟨"mpd://b".toList, [], 0⟩]] :=
  (playlistEvents_playCount
    [[⟨"mpd://b".toList, [], 0⟩], [⟨"mpd://b".toList, [], 0⟩]]
    ⟨"mpd://a".toList, fun _ => 0⟩ "mpd://b".toList).1 (by decide)

/-- C2 counterexample: the claim as stated fails for a URI without the
`mpd://` schema. The head changes from `mpd://a` to the stream URI
`http://radio` — a distinct head transition to that URI — yet the
persisted play count of `http://radio` stays 0 instead of becoming 1,
because `incrementPlayCount` returns before touching the sticker store. -/
theorem playlistEvents_playCount_counterexample :
    (playlistEvents [[⟨"http://radio".toList, [], 0⟩]]
        ⟨"mpd://a".toList, fun _ => 0⟩).lastTrack = "http://radio".toList ∧
      (playlistEvents [[⟨"http://radio".toList, [], 0⟩]]
        ⟨"mpd://a".toList, fun _ => 0⟩).playCount "http://radio".toList = 0 := by
  constructor <;> rfl

/-! ## Sync loop: the `"mpd-playlist"` handler and `playlistMatchesServer`

The handler locks the playlist, fetches the daemon's queue, and if it
already matches the local playlist does nothing — otherwise it removes the
already-played leading entries, reloads the queue, merges the local
per-track metadata in by URI and emits `"playlist"` (plus
`"playlist-end"` on an empty result). Protocol errors abort the iteration
and are logged; the error-free path is embedded, with the daemon state
passed in explicitly. -/

/-- The daemon state read by the handler: the queue (MPD-side song file
names, `song["file"]`) and the current song index from the `song` status
attribute (0 when absent, matching `statusAttrInt`'s default). -/
structure MpdServer where
  queue : List Str
  songIndex : Nat

/-- `playlistMatchesServer` from `mpd.go`: true exactly when the fetched
queue and the local playlist have equal length and `mpdToUri` of every
queue entry equals the URI of the local track at the same position. -/
def playlistMatchesServer (songs : List Str) (plist : List PlaylistTrack) : Bool :=
  plist.length == songs.length &&
    (List.zip songs plist).all fun sp => mpdToUri sp.1 == sp.2.uri

/-- `removePlayedTracks` from `mpd.go`: `Delete(0, songIndex)` drops the
songs before the play cursor when the cursor is past the start. -/
def removePlayedTracks (srv : MpdServer) : MpdServer :=
  if srv.songIndex > 0 then { queue := srv.queue.drop srv.songIndex, songIndex := 0 }
  else srv

/-- `loadPlaylist` from `mpd.go`: the queue as internal URIs. -/
def loadPlaylist (srv : MpdServer) : List Str :=
  srv.queue.map mpdToUri

/-- Modelled from the spec: `player.InterpolatePlaylistMeta`, whose source
lies outside `src/`. Remote order is authoritative for which tracks appear
and in what sequence; locally held metadata is carried over by matching
URI; URIs no longer present are dropped and new URIs get default
metadata. -/
def InterpolatePlaylistMeta (old : List PlaylistTrack) (ids : List Str) :
    List PlaylistTrack :=
  ids.map fun uri =>
    match old.find? (fun t => t.uri == uri) with
    | some t => t
    | none => { uri := uri, queuedBy := [], progress := 0 }

/-- Names of events emitted through the `util.Emitter`. -/
def eventPlaylist : Str := "playlist".toList

/-- The `"playlist-end"` event name. -/
def eventPlaylistEnd : Str := "playlist-end".toList

/-- `mainLoop`'s `case "mpd-playlist"` from `mpd.go` on the error-free
path: returns the new local playlist and the list of events emitted
during the iteration, in emission order. -/
def handleMpdPlaylist (srv : MpdServer) (plist : List PlaylistTrack) :
    List PlaylistTrack × List Str :=
  if playlistMatchesServer srv.queue plist then (plist, [])
  else
    let srv2 := removePlayedTracks srv
    let newPlist := InterpolatePlaylistMeta plist (loadPlaylist srv2)
    (newPlist, eventPlaylist :: if newPlist.length = 0 then [eventPlaylistEnd] else [])

theorem playlistMatchesServer_eq_map (songs : List Str) (plist : List PlaylistTrack) :
    playlistMatchesServer songs plist = true ↔
      songs.map mpdToUri = plist.map PlaylistTrack.uri := by
  induction songs generalizing plist with
  | nil =>
    cases plist <;> simp [playlistMatchesServer]
  | cons s rest ih =>
    cases plist with
    | nil => simp [playlistMatchesServer]
    | cons p ptl =>
      have := ih ptl
      simp only [playlistMatchesServer, List.zip_cons_cons, List.all_cons,
        Bool.and_eq_true, beq_iff_eq, List.length_cons, List.map_cons, List.cons.injEq] at *
      constructor
      · rintro ⟨hlen, huri, hall⟩
        exact ⟨huri, this.mp ⟨by omega, hall⟩⟩
      · rintro ⟨huri, hmap⟩
        have h2 := this.mpr hmap
        exact ⟨by omega, huri, h2.2⟩

/-- C3: `playlistMatchesServer` returns true exactly when the daemon's
queue and the local playlist have the same length and pointwise-equal
URIs, and when it does the `"mpd-playlist"` handler is a no-op: the local
playlist field is unchanged and no `"playlist"` or `"playlist-end"` event
is emitted during that iteration. -/
theorem handleMpdPlaylist_noop (srv : MpdServer) (plist : List PlaylistTrack) :
    (playlistMatchesServer srv.queue plist = true ↔
      plist.length = srv.queue.length ∧
        ∀ (i : Nat) (hs : i < srv.queue.length) (hp : i < plist.length),
          mpdToUri (srv.queue.get ⟨i, hs⟩) = (plist.get ⟨i, hp⟩).uri) ∧
    (playlistMatchesServer srv.queue plist = true →
      handleMpdPlaylist srv plist = (plist, [])) := by
  constructor
  · rw [playlistMatchesServer_eq_map]
    constructor
    · intro h
      have hlen : srv.queue.length = plist.length := by
        have := congrArg List.length h
        simpa using this
      refine ⟨hlen.symm, ?_⟩
      intro i hs hp
      have h1 : i < (srv.queue.map mpdToUri).length := by simpa using hs
      have := List.get_of_eq h ⟨i, h1⟩
      simpa using this
    · rintro ⟨hlen, hpt⟩
      apply List.ext_get
      · simpa using hlen.symm
      · intro i h1 h2
        have hs : i < srv.queue.length := by simpa using h1
        have hp : i < plist.length := by simpa using h2
        have := hpt i hs hp
        simpa using this
  · intro h
    simp [handleMpdPlaylist, h]

/-- C3 witness: a queue of one song `a` matching the one-track local
playlist `mpd://a` leaves the handler a no-op with no events. -/
theorem handleMpdPlaylist_noop_witness :
    handleMpdPlaylist ⟨["a".toList], 0⟩ [⟨"mpd://a".toList, "user".toList, 3⟩] =
      ([⟨"mpd://a".toList, "user".toList, 3⟩], []) :=
  (handleMpdPlaylist_noop ⟨["a".toList], 0⟩
    [⟨"mpd://a".toList, "user".toList, 3⟩]).2 (by decide)

/-! ## Track cache (`TrackCache` in the `player` package)

The cache holds `tracks` (the catalogue slice, `nil` before the first
load and after a failed one), `index` (a map from URI to the cached
track, rebuilt with the list) and `err` (the stored reload error).
Reloads call `cache.Player.Tracks()`, embedded as an `Except`-valued
oracle result passed to each operation. -/

/-- A `player.Track` catalogue entry; a representative subset of the tag
attributes is carried, the Go zero value being all-empty fields. -/
structure Track where
  uri : Str
  artist : Str
  title : Str
  album : Str
  deriving DecidableEq, Repr

instance : Inhabited Track := ⟨⟨[], [], [], []⟩⟩

/-- An opaque error value, the embedding of a Go `error`. -/
structure CacheError where
  code : Nat
  deriving DecidableEq, Repr

/-- The `TrackCache` fields; `none` embeds a `nil` slice or map. -/
structure CacheState where
  tracks : Option (List Track)
  index : Option (List (Str × Track))
  err : Option CacheError
  deriving DecidableEq, Repr

/-- The cache before any load: all fields `nil`. -/
def initialCache : CacheState := ⟨none, none, none⟩

/-- The index built by `reloadTracks`: every track keyed by its URI. Go
map writes overwrite, so a later duplicate URI wins; lookups read the
list from the right. -/
def buildIndex (ts : List Track) : List (Str × Track) :=
  ts.map fun t => (t.uri, t)

/-- Go map lookup on the association list: the last write wins. -/
def lookupIndex (idx : List (Str × Track)) (uri : Str) : Option Track :=
  (idx.reverse.find? fun p => p.1 == uri).map fun p => p.2

/-- `reloadTracks` from the cache: a failed `Player.Tracks()` stores the
error and clears list and index; a successful one replaces list and index
— and, as in the source, leaves `err` untouched. -/
def reloadTracks (res : Except CacheError (List Track)) (c : CacheState) : CacheState :=
  match res with
  | Except.error e => { c with err := some e, tracks := none, index := none }
  | Except.ok ts => { c with tracks := some ts, index := some (buildIndex ts) }

/-- `TrackCache.Tracks()`: reload when nothing is cached, then surface the
stored error if any, else the cached list. Returns the cache state after
the call alongside the result. -/
def cacheTracks (res : Except CacheError (List Track)) (c : CacheState) :
    CacheState × Except CacheError (List Track) :=
  let c2 := if c.tracks.isNone then reloadTracks res c else c
  match c2.err with
  | some e => (c2, Except.error e)
  | none => (c2, Except.ok (c2.tracks.getD []))

/-- The outcome of `TrackCache.TrackInfo`: a result, a returned error, or
the out-of-range panic at `tracks[0]` on an empty fallback slice. -/
inductive TIOutcome where
  | ok (ts : List Track)
  | err (e : CacheError)
  | panicked
  deriving DecidableEq, Repr

/-- The per-URI resolution loop of `TrackCache.TrackInfo`: an index hit is
copied out; a miss falls back to `cache.Player.TrackInfo(uri)` and takes
element 0 of the returned slice. -/
def trackInfoLoop (idx : List (Str × Track))
    (fallback : Str → Except CacheError (List Track)) : List Str → TIOutcome
  | [] => TIOutcome.ok []
  | uri :: rest =>
    match lookupIndex idx uri with
    | some t =>
      match trackInfoLoop idx fallback rest with
      | TIOutcome.ok ts => TIOutcome.ok (t :: ts)
      | other => other
    | none =>
      match fallback uri with
      | Except.error e => TIOutcome.err e
      | Except.ok ts =>
        match ts.head? with
        | none => TIOutcome.panicked
        | some t =>
          match trackInfoLoop idx fallback rest with
          | TIOutcome.ok ts2 => TIOutcome.ok (t :: ts2)
          | other => other

/-- `TrackCache.TrackInfo(uris...)`: the stored error is surfaced first;
otherwise a missing cache triggers a reload, and the loop resolves each
URI against the (possibly still nil) index. -/
def cacheTrackInfo (res : Except CacheError (List Track))
    (fallback : Str → Except CacheError (List Track)) (uris : List Str)
    (c : CacheState) : CacheState × TIOutcome :=
  match c.err with
  | some e => (c, TIOutcome.err e)
  | none =>
    let c2 := if c.tracks.isNone then reloadTracks res c else c
    (c2, trackInfoLoop (c2.index.getD []) fallback uris)

/-- C4, the failure behaviour the sync chain produces in the source: a
failed reload stores the error and clears list and index, and subsequent
`Tracks()` and `TrackInfo()` calls surface that stored error — but
because `reloadTracks` never resets `err` on success, the error keeps
being surfaced even after the next successful reload (here triggered by a
`"tracks"` event), where the claim and the spec say reads recover. -/
theorem trackCache_error_persists_after_successful_reload :
    (reloadTracks (Except.error ⟨5⟩) initialCache).err = some ⟨5⟩ ∧
    (reloadTracks (Except.error ⟨5⟩) initialCache).tracks = none ∧
    (reloadTracks (Except.error ⟨5⟩) initialCache).index = none ∧
    (cacheTracks (Except.ok [⟨"mpd://a".toList, [], [], []⟩])
        (reloadTracks (Except.error ⟨5⟩) initialCache)).2 = Except.error ⟨5⟩ ∧
    (cacheTrackInfo (Except.ok [⟨"mpd://a".toList, [], [], []⟩])
        (fun _ => Except.ok []) ["mpd://a".toList]
        (reloadTracks (Except.error ⟨5⟩) initialCache)).2 = TIOutcome.err ⟨5⟩ ∧
    (cacheTracks (Except.ok [⟨"mpd://b".toList, [], [], []⟩])
        (reloadTracks (Except.ok [⟨"mpd://a".toList, [], [], []⟩])
          (reloadTracks (Except.error ⟨5⟩) initialCache))).2 = Except.error ⟨5⟩ := by
  refine ⟨rfl, rfl, rfl, rfl, rfl, rfl⟩

/-! ## Filter/search engine (`filter.Tracks`, `SearchResult`, `ByNumMatches`)

`filter.Tracks` feeds the catalogue into a channel, a pool of workers
applies the predicate and forwards keepers into a result channel, and the
caller drains it. Each catalogue entry is consumed by exactly one worker,
each worker preserves the order of its own share, and the result list is
an arbitrary interleaving of the workers' outputs. -/

/-- A `filter.SearchMatch`: the `Start` and `End` offsets in the matched
value (renamed here because both words are reserved). -/
structure SearchMatch where
  startOff : Nat
  endOff : Nat
  deriving DecidableEq, Repr

/-- A `filter.SearchResult`: a track with the matched properties, the Go
map `Matches` embedded as an association list from property name to
match list (the field is renamed, `matches` being reserved). -/
structure SearchResult where
  track : Track
  matchProps : List (Str × List SearchMatch)
  deriving DecidableEq, Repr

/-- `SearchResult.NumMatches`: the total number of matches across all
properties — the sum of the lengths of the per-property match lists. -/
def NumMatches (sr : SearchResult) : Nat :=
  (sr.matchProps.map fun prop => prop.2.length).sum

/-- A `filter.Filter`: a predicate returning a match result and the
"kept" flag. -/
def FilterFn : Type := Track → SearchResult × Bool

/-- What one worker does with one track: forward the result when the
kept flag is true. -/
def keptResult (f : FilterFn) (t : Track) : Option SearchResult :=
  if (f t).2 then some (f t).1 else none

/-- One worker's output on its share of the track stream, in order. -/
def workerRun (f : FilterFn) (ts : List Track) : List SearchResult :=
  ts.filterMap (keptResult f)

/-- `Interleaves parts l`: `l` is an interleaving of the lists in
`parts` — every element of `l` is drawn from the front of one of the
parts, in any order across parts but in order within each part. It models
both the distribution of the track channel over the workers and the
merging of the workers' sends into the result channel. -/
inductive Interleaves : List (List α) → List α → Prop
  | nil (parts : List (List α)) (h : ∀ l ∈ parts, l = []) : Interleaves parts []
  | cons (parts : List (List α)) (i : Nat) (x : α) (xs : List α) (r : List α)
      (hget : parts.get? i = some (x :: xs))
      (hrest : Interleaves (parts.set i xs) r) : Interleaves parts (x :: r)

theorem flatten_set_cons_perm (parts : List (List α)) (i : Nat) (x : α) (xs : List α)
    (hget : parts.get? i = some (x :: xs)) :
    (parts.flatten).Perm (x :: (parts.set i xs).flatten) := by
  induction parts generalizing i with
  | nil => simp at hget
  | cons p ps ih =>
    cases i with
    | zero =>
      simp only [List.get?_cons_zero, Option.some.injEq] at hget
      subst hget
      simp [List.set]
    | succ j =>
      simp only [List.get?_cons_succ] at hget
      have h := ih j hget
      have h1 : (p :: ps).flatten = p ++ ps.flatten := by simp
      have h2 : (p ++ ps.flatten).Perm (p ++ (x :: (ps.set j xs).flatten)) :=
        List.Perm.append_left p h
      have h3 : (p ++ x :: (ps.set j xs).flatten).Perm
          (x :: (p ++ (ps.set j xs).flatten)) := List.perm_middle
      have h4 : x :: ((p :: ps).set (j + 1) xs).flatten =
          x :: (p ++ (ps.set j xs).flatten) := by simp [List.set]
      rw [h1, h4]
      exact h2.trans h3

theorem interleaves_perm_flatten (parts : List (List α)) (l : List α)
    (h : Interleaves parts l) : l.Perm parts.flatten := by
  induction h with
  | nil parts h =>
    have : parts.flatten = [] := by
      rw [List.flatten_eq_nil_iff]
      exact h
    simp [this]
  | cons parts i x xs r hget _ ih =>
    have hp := flatten_set_cons_perm parts i x xs hget
    exact (List.Perm.cons x ih).trans hp.symm

theorem flatten_map_workerRun (f : FilterFn) (parts : List (List Track)) :
    (parts.map (workerRun f)).flatten = workerRun f parts.flatten := by
  induction parts with
  | nil => simp [workerRun]
  | cons p ps ih => simp [workerRun, List.filterMap_append, ih]

/-- C5: for every catalogue, every predicate, every distribution of the
catalogue over any number of workers, and every interleaving of the
workers' outputs, the list collected by `filter.Tracks` equals, as a
multiset, the kept results of the predicate over the catalogue — one
result per input track whose kept flag is true, independent of worker
count and of ordering. -/
theorem filterTracks_multiset (f : FilterFn) (tracks : List Track)
    (parts : List (List Track)) (result : List SearchResult)
    (hin : Interleaves parts tracks)
    (hout : Interleaves (parts.map (workerRun f)) result) :
    (result : Multiset SearchResult) = (workerRun f tracks : Multiset SearchResult) := by
  have h1 : result.Perm (parts.map (workerRun f)).flatten :=
    interleaves_perm_flatten _ _ hout
  have h2 : result.Perm (workerRun f parts.flatten) := by
    rw [flatten_map_workerRun] at h1
    exact h1
  have h3 : tracks.Perm parts.flatten := interleaves_perm_flatten _ _ hin
  have h4 : (workerRun f parts.flatten).Perm (workerRun f tracks) :=
    (h3.filterMap (keptResult f)).symm
  exact Multiset.coe_eq_coe.mpr (h2.trans h4)

/-- A two-worker run used as the C5 witness: the first worker receives
tracks 1 and 3, the second track 2, and the second worker's keeper lands
between the first worker's keepers in the result channel. -/
def witnessTrack (n : Nat) : Track := ⟨[Char.ofNat n], [], [], []⟩

/-- The witness predicate keeps every track with an empty match set. -/
def witnessFilter : FilterFn := fun t => (⟨t, []⟩, true)

/-- The search result the witness predicate produces for `witnessTrack n`. -/
def witnessRes (n : Nat) : SearchResult := ⟨witnessTrack n, []⟩

/-- C5 witness: the theorem applied to the concrete two-worker run. -/
theorem filterTracks_multiset_witness :
    ((([witnessRes 1, witnessRes 2, witnessRes 3] :
        List SearchResult) : Multiset SearchResult)) =
      (workerRun witnessFilter [witnessTrack 1, witnessTrack 2, witnessTrack 3] :
        Multiset SearchResult) := by
  have h0 : Interleaves ([[], []] : List (List Track)) [] :=
    Interleaves.nil _ (by simp)
  have h1 : Interleaves [[witnessTrack 3], []] [witnessTrack 3] :=
    Interleaves.cons _ 0 _ [] _ rfl h0
  have h2 : Interleaves [[witnessTrack 3], [witnessTrack 2]]
      [witnessTrack 2, witnessTrack 3] :=
    Interleaves.cons _ 1 _ [] _ rfl h1
  have hin : Interleaves [[witnessTrack 1, witnessTrack 3], [witnessTrack 2]]
      [witnessTrack 1, witnessTrack 2, witnessTrack 3] :=
    Interleaves.cons _ 0 _ [witnessTrack 3] _ rfl h2
  have g0 : Interleaves ([[], []] : List (List SearchResult)) [] :=
    Interleaves.nil _ (by simp)
  have g1 : Interleaves [[witnessRes 3], []] [witnessRes 3] :=
    Interleaves.cons _ 0 _ [] _ rfl g0
  have g2 : Interleaves [[witnessRes 3], [witnessRes 2]]
      [witnessRes 2, witnessRes 3] :=
    Interleaves.cons _ 1 _ [] _ rfl g1
  have hout : Interleaves
      [[witnessRes 1, witnessRes 3], [witnessRes 2]]
      [witnessRes 1, witnessRes 2, witnessRes 3] :=
    Interleaves.cons _ 0 _ [witnessRes 3] _ rfl g2
  exact filterTracks_multiset witnessFilter
    [witnessTrack 1, witnessTrack 2, witnessTrack 3]
    [[witnessTrack 1, witnessTrack 3], [witnessTrack 2]] _ hin hout

/-! ## Concurrent `TrackCache.Tracks()` calls (the read-lock upgrade)

`Tracks()` checks `cache.tracks == nil` under the read lock, and when nil
releases it, takes the write lock and calls `reloadTracks()` —
unconditionally, with no second check of `cache.tracks` after the
upgrade. The model gives each caller two atomic steps, the read-locked
check and the write-locked reload, and lets a schedule interleave them. -/

/-- The program counter of one `Tracks()` caller: `check` is the
read-locked nil test, `reload` the write-locked `reloadTracks()` call,
`done` past both. -/
inductive CallerPc where
  | check
  | reload
  | done
  deriving DecidableEq, Repr

/-- The shared cache and the callers. `tracksNil` embeds
`cache.tracks == nil`; `reloads` counts the `reloadTracks()` calls (each
modelled as succeeding, so it sets `tracksNil := false`). -/
structure RaceState where
  tracksNil : Bool
  reloads : Nat
  pcs : List CallerPc
  deriving DecidableEq, Repr

/-- One scheduled step of caller `tid`. The read lock admits concurrent
checkers; the write lock serialises the reloads; the schedule decides the
order in which the atomic sections run. -/
def raceStep (s : RaceState) (tid : Nat) : RaceState :=
  match s.pcs.get? tid with
  | some CallerPc.check =>
    if s.tracksNil then { s with pcs := s.pcs.set tid CallerPc.reload }
    else { s with pcs := s.pcs.set tid CallerPc.done }
  | some CallerPc.reload =>
    { tracksNil := false, reloads := s.reloads + 1, pcs := s.pcs.set tid CallerPc.done }
  | _ => s

/-- A schedule of caller steps. -/
def raceRun (sched : List Nat) (s : RaceState) : RaceState :=
  sched.foldl raceStep s

/-- Two callers with nothing cached yet, both before their check. -/
def raceInit : RaceState := ⟨true, 0, [CallerPc.check, CallerPc.check]⟩

/-- C6 divergence, evaluated at the failing interleaving: with two
concurrent `Tracks()` callers and no data cached, the schedule in which
both callers pass the read-locked nil check before either takes the
write lock makes both of them call `reloadTracks()` — 2 reloads, where
the claim requires exactly one. A fully serialised schedule performs one
reload, so the interleaving alone accounts for the difference. -/
theorem tracksRace_two_reloads :
    (raceRun [0, 1, 0, 1] raceInit).reloads = 2 ∧
      (raceRun [0, 0, 1, 1] raceInit).reloads = 1 := by
  constructor <;> rfl

/-! ## Ranking search results (`ByNumMatches`, `sort.Stable`)

`ByNumMatches.Less(a, b)` is `l[a].NumMatches() > l[b].NumMatches()`; the
spec mandates an explicit stable sort under this order (the invocation
itself lies outside `src/`, so the sort is modelled from the spec; the
comparator and `NumMatches` are from the source). A stable sort under a
`Less` comparator yields a sequence in which no later element is `Less`
than an earlier one and elements neither of which is `Less` than the
other keep their original relative order; insertion that skips past
exactly the strictly-greater elements realises that contract. -/

/-- `ByNumMatches.Less` from `filter.go`: `a` sorts before `b` when it has
strictly more matches. -/
def resultLess (a b : SearchResult) : Bool :=
  NumMatches b < NumMatches a

/-- Modelled from the spec: one insertion step of the explicit stable sort
by descending match count — the new element goes after every
strictly-greater element and before the first element not greater than
it, so equal-count elements keep their original order. -/
def stableInsert (x : SearchResult) : List SearchResult → List SearchResult
  | [] => [x]
  | y :: ys => if resultLess y x then y :: stableInsert x ys else x :: y :: ys

/-- Modelled from the spec: the explicit stable sort of the search results
by descending total match count. -/
def sortByNumMatches : List SearchResult → List SearchResult
  | [] => []
  | x :: xs => stableInsert x (sortByNumMatches xs)

theorem mem_stableInsert (z x : SearchResult) (l : List SearchResult) :
    z ∈ stableInsert x l ↔ z = x ∨ z ∈ l := by
  induction l with
  | nil => simp [stableInsert]
  | cons y ys ih =>
    by_cases h : resultLess y x
    · simp [stableInsert, h, ih]
      tauto
    · simp [stableInsert, h, ih]

theorem stableInsert_perm (x : SearchResult) (l : List SearchResult) :
    (stableInsert x l).Perm (x :: l) := by
  induction l with
  | nil => simp [stableInsert]
  | cons y ys ih =>
    by_cases h : resultLess y x
    · simp only [stableInsert, h, if_true]
      exact (ih.cons y).trans (List.Perm.swap x y ys)
    · simp [stableInsert, h]

theorem sorted_stableInsert (x : SearchResult) (l : List SearchResult)
    (h : l.Pairwise fun a b => NumMatches b ≤ NumMatches a) :
    (stableInsert x l).Pairwise fun a b => NumMatches b ≤ NumMatches a := by
  induction l with
  | nil => simp [stableInsert]
  | cons y ys ih =>
    rw [List.pairwise_cons] at h
    by_cases hyx : resultLess y x
    · have hlt : NumMatches x < NumMatches y := by
        simpa [resultLess] using hyx
      simp only [stableInsert, hyx, if_true]
      rw [List.pairwise_cons]
      refine ⟨?_, ih h.2⟩
      intro z hz
      rcases (mem_stableInsert z x ys).mp hz with rfl | hz2
      · exact Nat.le_of_lt hlt
      · exact h.1 z hz2
    · have hle : NumMatches y ≤ NumMatches x := by
        simpa [resultLess] using hyx
      simp only [stableInsert, hyx, Bool.false_eq_true, if_false]
      rw [List.pairwise_cons]
      refine ⟨?_, List.pairwise_cons.mpr h⟩
      intro z hz
      rcases List.mem_cons.mp hz with rfl | hz2
      · exact hle
      · exact le_trans (h.1 z hz2) hle

theorem filter_stableInsert (x : SearchResult) (l : List SearchResult) (k : Nat) :
    (stableInsert x l).filter (fun y => NumMatches y == k) =
      if NumMatches x == k then
        x :: l.filter (fun y => NumMatches y == k)
      else l.filter (fun y => NumMatches y == k) := by
  induction l with
  | nil =>
    by_cases hx : NumMatches x == k <;> simp [stableInsert, List.filter, hx]
  | cons y ys ih =>
    by_cases hyx : resultLess y x
    · have hlt : NumMatches x < NumMatches y := by
        simpa [resultLess] using hyx
      by_cases hx : NumMatches x == k
      · have hk : NumMatches x = k := by simpa using hx
        have hy : (NumMatches y == k) = false := by
          simp only [beq_eq_false_iff_ne, ne_eq]
          omega
        simp only [stableInsert, hyx, if_true, List.filter_cons, hy, hx, ih, if_true]
        simp
      · have hk : ¬ NumMatches x = k := by simpa using hx
        simp only [stableInsert, hyx, if_true, List.filter_cons, hx, ih]
        simp [hk]
    · by_cases hx : NumMatches x == k <;>
        simp [stableInsert, hyx, List.filter_cons, hx]

/-- C7: the explicit stable sort of the search results orders them by
descending total match count — the count being the sum of the lengths of
the match lists over all matched properties, which is what `NumMatches`
computes — it is a permutation of its input, and results with equal
total match counts keep their original order: for every count the
subsequence of results with that count is unchanged. -/
theorem sortByNumMatches_spec (l : List SearchResult) :
    (sortByNumMatches l).Pairwise (fun a b => NumMatches b ≤ NumMatches a) ∧
    (sortByNumMatches l).Perm l ∧
    ∀ k : Nat, (sortByNumMatches l).filter (fun y => NumMatches y == k) =
      l.filter (fun y => NumMatches y == k) := by
  induction l with
  | nil => exact ⟨by simp [sortByNumMatches], by simp [sortByNumMatches], by
      intro k
      simp [sortByNumMatches]⟩
  | cons x xs ih =>
    refine ⟨?_, ?_, ?_⟩
    · exact sorted_stableInsert x (sortByNumMatches xs) ih.1
    · exact (stableInsert_perm x (sortByNumMatches xs)).trans (ih.2.1.cons x)
    · intro k
      rw [show sortByNumMatches (x :: xs) = stableInsert x (sortByNumMatches xs) from rfl,
        filter_stableInsert, ih.2.2 k]
      by_cases hx : NumMatches x == k <;> simp [List.filter_cons, hx]

/-! ## Keepalive supervisor (`reusableClient.run`)

`run` selects between the ping ticker, the idle-expiry timer and the
reset channel. A failed ping or a fired expiry timer closes and nils the
client, closes the reset channel and returns; a reset re-arms the expiry
timer with the full `expireAfter`. The embedding is a timed step
relation: each event carries the instant at which the select handles it,
the expiry timer can fire no earlier than the armed deadline, and a
closed supervisor admits no step at all. -/

/-- The supervisor's state: `alive` embeds `rc.client != nil`, `closed`
that the reset channel has been closed (the goroutine returned) and
`deadline` the instant at which the armed idle-expiry timer fires. -/
structure RCState where
  alive : Bool
  closed : Bool
  deadline : Nat
  deriving DecidableEq, Repr

/-- The events the supervisor's select can wake on. -/
inductive RCEvent where
  /-- A ticker fire with a successful `Ping()`. -/
  | pingOk
  /-- A ticker fire whose `Ping()` returns an error. -/
  | pingFail
  /-- The idle-expiry timer fires. -/
  | expire
  /-- A `withMpd` use of the connection sends on the reset channel. -/
  | reset
  deriving DecidableEq, Repr

/-- One step of `reusableClient.run` with expiry window `E`, handling
event `ev` at instant `t`. No step exists once `closed` — the goroutine
has returned. The expiry timer can only fire at or after its armed
deadline; a reset re-arms it to `t + E`. -/
inductive RCStep (E : Nat) : RCState → Nat × RCEvent → RCState → Prop
  | pingOk (s : RCState) (t : Nat) (hr : s.closed = false) :
      RCStep E s (t, RCEvent.pingOk) s
  | pingFail (s : RCState) (t : Nat) (hr : s.closed = false) :
      RCStep E s (t, RCEvent.pingFail) ⟨false, true, s.deadline⟩
  | expire (s : RCState) (t : Nat) (hr : s.closed = false)
      (ht : s.deadline ≤ t) :
      RCStep E s (t, RCEvent.expire) ⟨false, true, s.deadline⟩
  | reset (s : RCState) (t : Nat) (hr : s.closed = false) :
      RCStep E s (t, RCEvent.reset) ⟨s.alive, false, t + E⟩

/-- A run of the supervisor over a sequence of timed events. -/
inductive RCTrace (E : Nat) : RCState → List (Nat × RCEvent) → RCState → Prop
  | nil (s : RCState) : RCTrace E s [] s
  | cons (s s' s'' : RCState) (ev : Nat × RCEvent) (evs : List (Nat × RCEvent))
      (hstep : RCStep E s ev s') (hrest : RCTrace E s' evs s'') :
      RCTrace E s (ev :: evs) s''

theorem rcStep_deadline_ge (E : Nat) (s s' : RCState) (t : Nat) (ev : RCEvent)
    (d : Nat) (hstep : RCStep E s (t, ev) s') (hd : d ≤ s.deadline) (hdt : d ≤ t + E) :
    d ≤ s'.deadline := by
  cases hstep with
  | pingOk => exact hd
  | pingFail => exact hd
  | expire => exact hd
  | reset => exact hdt

theorem rcTrace_deadline_ge (E : Nat) (s s' : RCState) (evs : List (Nat × RCEvent))
    (d : Nat) (htr : RCTrace E s evs s') (hd : d ≤ s.deadline)
    (hts : ∀ p ∈ evs, d ≤ p.1 + E) : d ≤ s'.deadline := by
  induction htr with
  | nil => exact hd
  | cons s s' s'' ev evs hstep hrest ih =>
    refine ih ?_ ?_
    · exact rcStep_deadline_ge E s s' ev.1 ev.2 d hstep hd (hts ev (by simp))
    · intro p hp
      exact hts p (by simp [hp])

/-- C8: the keepalive supervisor as a state machine on ping-tick,
idle-expiry and reset events. A failed ping closes the connection, marks
it dead and closes the reset channel; so does a fired idle-expiry timer;
a closed supervisor performs no step of any kind ever again; and a reset
re-arms the expiry timer for the full window, so after a reset at instant
`r` no expiry can happen before `r + E` however many further uses and
pings intervene — the connection is never expired while it keeps being
used within the expiry window. -/
theorem reusableClient_run_spec (E : Nat) :
    (∀ s t s', RCStep E s (t, RCEvent.pingFail) s' →
      s'.alive = false ∧ s'.closed = true) ∧
    (∀ s t s', RCStep E s (t, RCEvent.expire) s' →
      s'.alive = false ∧ s'.closed = true) ∧
    (∀ s, s.closed = true → ∀ ev s', ¬ RCStep E s ev s') ∧
    (∀ s r s2 evs s3 t s4, RCStep E s (r, RCEvent.reset) s2 →
      RCTrace E s2 evs s3 → (∀ p ∈ evs, r ≤ p.1) →
      RCStep E s3 (t, RCEvent.expire) s4 → r + E ≤ t) := by
  refine ⟨?_, ?_, ?_, ?_⟩
  · intro s t s' h
    cases h
    exact ⟨rfl, rfl⟩
  · intro s t s' h
    cases h
    exact ⟨rfl, rfl⟩
  · intro s hc ev s' h
    cases h <;> simp_all
  · intro s r s2 evs s3 t s4 hreset htr hts hexp
    have h2 : r + E ≤ s2.deadline := by
      cases hreset
      simp
    have h3 : r + E ≤ s3.deadline := by
      refine rcTrace_deadline_ge E s2 s3 evs (r + E) htr h2 ?_
      intro p hp
      have := hts p hp
      omega
    cases hexp with
    | expire _ _ ht => omega

/-- C8 witness: a concrete run. From a live supervisor armed to expire at
instant 10, a reset at instant 8 re-arms the timer to 8 + 30; after a
successful ping at instant 12 the expiry firing at instant 38 is the
earliest allowed: `8 + 30 ≤ 38`. -/
theorem reusableClient_run_spec_witness : 8 + 30 ≤ 38 :=
  (reusableClient_run_spec 30).2.2.2 ⟨true, false, 10⟩ 8 ⟨true, false, 38⟩
    [(12, RCEvent.pingOk)] ⟨true, false, 38⟩ 38 ⟨false, true, 38⟩
    (RCStep.reset ⟨true, false, 10⟩ 8 rfl)
    (RCTrace.cons _ _ _ _ _ (RCStep.pingOk ⟨true, false, 38⟩ 12 rfl)
      (RCTrace.nil _))
    (by intro p hp; simp at hp; simp [hp])
    (RCStep.expire ⟨true, false, 38⟩ 38 rfl (by decide))

/-! ## `Player.TrackInfo` (the cache's per-URI fallback query)

For each identity, `Player.TrackInfo` fills a slot of the `songs` array:
for an `mpd://` URI the first record of `ListAllInfo(path)` if any; for a
URI containing `http(s)://` that equals the current playlist head, the
`CurrentSong()` record with its `Album` set from `Name`; otherwise the
slot stays `nil`. The collection loop then skips records carrying a
`directory` key (counting them in `numDirs`), converts the others —
leaving the Go zero-value `Track` for `nil` slots — and trims the last
`numDirs` slots off. Daemon responses are oracle parameters. -/

/-- A record returned by the daemon: either a directory entry or a song
with a representative subset of its tag attributes. -/
structure MpdSong where
  isDir : Bool
  file : Str
  title : Str
  album : Str
  name : Str
  deriving DecidableEq, Repr

/-- The daemon oracle for one `Player.TrackInfo` call. -/
structure MpdOracle where
  listAllInfo : Str → Except CacheError (List MpdSong)
  currentSong : Except CacheError MpdSong

/-- `trackFromMpdSong` restricted to the embedded attributes (the caller
guarantees the record is not a directory). -/
def trackFromMpdSong (s : MpdSong) : Track :=
  { uri := mpdToUri s.file, artist := [], title := s.title, album := s.album }

/-- The Go zero value a `nil` `songs` slot leaves in the output slice. -/
def zeroTrack : Track := ⟨[], [], [], []⟩

/-- Whether the unanchored pattern `https?:\/\/` matches the URI. -/
def isHttpUri (uri : Str) : Bool :=
  hasSubstring "http://".toList uri || hasSubstring "https://".toList uri

/-- The slot-filling pass of `Player.TrackInfo` for one identity. -/
def fetchSong (o : MpdOracle) (currentTrackUri uri : Str) :
    Except CacheError (Option MpdSong) :=
  if startsWithSchema uri then
    match o.listAllInfo (uriToMpd uri) with
    | Except.error e => Except.error e
    | Except.ok s => Except.ok s.head?
  else if isHttpUri uri && currentTrackUri == uri then
    match o.currentSong with
    | Except.error e => Except.error e
    | Except.ok song => Except.ok (some { song with album := song.name })
  else Except.ok none

/-- The slot-filling pass over all identities. -/
def fetchSongs (o : MpdOracle) (currentTrackUri : Str) :
    List Str → Except CacheError (List (Option MpdSong))
  | [] => Except.ok []
  | uri :: rest =>
    match fetchSong o currentTrackUri uri with
    | Except.error e => Except.error e
    | Except.ok s =>
      match fetchSongs o currentTrackUri rest with
      | Except.error e => Except.error e
      | Except.ok ss => Except.ok (s :: ss)

/-- The collection loop with the `numDirs` trim: directory records
contribute nothing, `nil` slots a zero-value track, song records their
conversion. -/
def collectTracks : List (Option MpdSong) → List Track
  | [] => []
  | none :: rest => zeroTrack :: collectTracks rest
  | some s :: rest =>
    if s.isDir then collectTracks rest
    else trackFromMpdSong s :: collectTracks rest

/-- `Player.TrackInfo` from `mpd.go`, over the daemon oracle. -/
def playerTrackInfo (o : MpdOracle) (currentTrackUri : Str) (identities : List Str) :
    Except CacheError (List Track) :=
  match fetchSongs o currentTrackUri identities with
  | Except.error e => Except.error e
  | Except.ok songs => Except.ok (collectTracks songs)

/-- C9, as amended: for a single-URI fallback query, whenever the daemon's
`ListAllInfo` response for the queried path does not begin with a
directory record — in particular whenever the response is empty, the slot
then yielding the zero-value track — and `CurrentSong` does not yield a
directory record, a non-error result is a non-empty slice, so the cache's
access to element 0 is in bounds. The unamended claim fails when the
first record is a directory entry (counterexample below). -/
theorem playerTrackInfo_head_isSome (o : MpdOracle) (currentTrackUri uri : Str)
    (ts : List Track)
    (hl : ∀ p s s0, o.listAllInfo p = Except.ok s → s.head? = some s0 →
      s0.isDir = false)
    (hc : ∀ s0, o.currentSong = Except.ok s0 → s0.isDir = false)
    (h : playerTrackInfo o currentTrackUri [uri] = Except.ok ts) :
    ts.head?.isSome = true := by
  unfold playerTrackInfo at h
  by_cases hs : startsWithSchema uri
  · cases hla : o.listAllInfo (uriToMpd uri) with
    | error e =>
      have hf : fetchSong o currentTrackUri uri = Except.error e := by
        simp [fetchSong, hs, hla]
      simp [fetchSongs, hf] at h
    | ok s =>
      cases hhd : s.head? with
      | none =>
        have hf : fetchSong o currentTrackUri uri = Except.ok none := by
          simp [fetchSong, hs, hla, hhd]
        simp [fetchSongs, hf, collectTracks] at h
        rw [← h]
        rfl
      | some s0 =>
        have hdir : s0.isDir = false := hl _ _ _ hla hhd
        have hf : fetchSong o currentTrackUri uri = Except.ok (some s0) := by
          simp [fetchSong, hs, hla, hhd]
        simp [fetchSongs, hf, collectTracks, hdir] at h
        rw [← h]
        rfl
  · by_cases hh : isHttpUri uri && currentTrackUri == uri
    · cases hcs : o.currentSong with
      | error e =>
        have hf : fetchSong o currentTrackUri uri = Except.error e := by
          simp [fetchSong, hs, hh, hcs]
        simp [fetchSongs, hf] at h
      | ok s0 =>
        have hdir : s0.isDir = false := hc _ hcs
        have hf : fetchSong o currentTrackUri uri =
            Except.ok (some { s0 with album := s0.name }) := by
          simp [fetchSong, hs, hh, hcs]
        simp [fetchSongs, hf, collectTracks, hdir] at h
        rw [← h]
        rfl
    · have hf : fetchSong o currentTrackUri uri = Except.ok none := by
        simp [fetchSong, hs, hh]
      simp [fetchSongs, hf, collectTracks] at h
      rw [← h]
      rfl

/-- The oracle of the C9 witness: every `ListAllInfo` answers with one
song record for the queried path. -/
def fileOracle : MpdOracle :=
  { listAllInfo := fun p => Except.ok [⟨false, p, "t".toList, [], []⟩],
    currentSong := Except.error ⟨0⟩ }

/-- C9 witness: the amended theorem applied to a concrete oracle whose
responses never start with a directory record. -/
theorem playerTrackInfo_head_isSome_witness :
    ([trackFromMpdSong ⟨false, "x".toList, "t".toList, [], []⟩] :
      List Track).head?.isSome = true :=
  playerTrackInfo_head_isSome fileOracle [] "mpd://x".toList _
    (by
      intro p s s0 h1 h2
      cases Except.ok.inj h1
      cases Option.some.inj h2
      rfl)
    (by
      intro s0 h1
      exact Except.noConfusion h1)
    (by rfl)

/-- The oracle of the C9 counterexample: the daemon answers every
`ListAllInfo` with a single directory record. -/
def dirOracle : MpdOracle :=
  { listAllInfo := fun p => Except.ok [⟨true, p, [], [], []⟩],
    currentSong := Except.error ⟨0⟩ }

/-- C9 counterexample: the claim as stated — a fallback query returning
without error always yields a non-empty slice — is false: when the first
record of the response is a directory entry, the `numDirs` trim leaves an
empty slice under a `nil` error, and the cache's `tracks[0]` access is
out of range. -/
theorem playerTrackInfo_head_counterexample :
    ¬ ∀ (o : MpdOracle) (currentTrackUri uri : Str) (ts : List Track),
        playerTrackInfo o currentTrackUri [uri] = Except.ok ts →
          ts.head?.isSome = true := by
  intro hclaim
  have h := hclaim dirOracle [] "mpd://somedir".toList []
  simp only [playerTrackInfo, fetchSongs, fetchSong, dirOracle] at h
  have h2 := h (by rfl)
  simp at h2

end Trollibox
